import Mathlib

/-!
Verification development for the MarketSense financial sentiment dashboard.

The definitions below are a shallow embedding of the computational core of the
repository: the keyword scorer and threshold classifier of
`src/hooks/useSentimentAnalysis.ts`, the market metrics of
`src/components/MarketDashboard.tsx`, and the portfolio risk assessment of
`src/components/PortfolioRisk.tsx`.

Modelling conventions:
- JavaScript floating point numbers are modelled over an arbitrary linear
  ordered field `α` wherever the source only adds, divides and compares
  (theorems instantiate to `ℝ`, witnesses evaluate at `ℚ`); computations that
  call `Math.sqrt` are modelled over `ℝ` with `Real.sqrt`.
- The `timestamp : Date` fields of the source records are wall clock side
  effects and carry no information used by any computation modelled here, so
  they are omitted from the records.
- Fallible asynchronous steps (a promise that may reject) are modelled with
  `Except`.
-/

namespace MarketSense

/-- Sentiment label attached to an analyzed text
(`src/types/sentiment.ts`, field `sentiment`). -/
inductive Sentiment where
  | positive
  | negative
  | neutral
deriving DecidableEq

/-- Market impact tier (`src/types/sentiment.ts`, field `marketImpact`). -/
inductive MarketImpact where
  | low
  | medium
  | high
deriving DecidableEq

/-- Result record produced by the scorer (`SentimentResult` in
`src/types/sentiment.ts`, without the wall clock `timestamp`). -/
structure SentimentResult (α : Type) where
  text : String
  sentiment : Sentiment
  confidence : α
  score : α
  marketImpact : MarketImpact
  sectors : Option (List String) := none
deriving DecidableEq

/-- News item record (`NewsItem` in `src/types/sentiment.ts`, without the wall
clock `timestamp`). -/
structure NewsItem (α : Type) where
  id : String
  headline : String
  source : String
  category : String
  sentiment : Option (SentimentResult α) := none
  url : Option String := none
  description : Option String := none
deriving DecidableEq

/-- Bullish keyword list (`useSentimentAnalysis.ts` line 56). -/
def bullishWords : List String :=
  ["growth", "profit", "gain", "bull", "rise", "increase", "positive",
   "strong", "good", "buy", "upgrade", "surge", "rally"]

/-- Bearish keyword list (`useSentimentAnalysis.ts` line 57). -/
def bearishWords : List String :=
  ["loss", "decline", "fall", "bear", "drop", "decrease", "negative",
   "weak", "bad", "sell", "downgrade", "crash", "plunge"]

/-- Fuel-indexed scan counting leftmost non-overlapping occurrences of the
literal pattern `p`: at each position, a match is counted and the scan resumes
after it, otherwise the scan advances one character. The fuel only bounds the
recursion depth so that the definition is structural and evaluates in the
kernel; every step consumes at least one character, so any fuel at least the
text length gives the value of the unbounded scan. -/
def countOccAux (p : List Char) : Nat → List Char → Nat
  | 0, _ => 0
  | _, [] => 0
  | fuel + 1, c :: rest =>
    if (c :: rest).take p.length = p then
      countOccAux p fuel (rest.drop (p.length - 1)) + 1
    else
      countOccAux p fuel rest

/-- Number of leftmost non-overlapping occurrences of the literal pattern `p`
in `t`, which is what `t.match(new RegExp(p, 'g'))` counts for a pattern
without regular expression metacharacters (every keyword above is plain
lowercase letters). -/
def countOcc (p t : List Char) : Nat := countOccAux p t.length t

/-- Character list of `text.toLowerCase()` (`useSentimentAnalysis.ts`
line 59). -/
def lowerStr (s : String) : List Char := s.data.map Char.toLower

/-- Occurrences of keyword `w` in the lower-cased text
(`useSentimentAnalysis.ts` lines 64 and 70). -/
def matchCount (text w : String) : Nat := countOcc w.data (lowerStr text)

/-- Total `wordCount` accumulated by the two `forEach` loops of
`useSentimentAnalysis.ts` lines 63-73. -/
def textWordCount (text : String) : Nat :=
  bearishWords.foldl (fun n w => n + matchCount text w)
    (bullishWords.foldl (fun n w => n + matchCount text w) 0)

/-- Raw `score` accumulated by the same loops: each bullish match adds 0.5 and
each bearish match subtracts 0.5. -/
def textRawScore (α : Type) [LinearOrderedField α] (text : String) : α :=
  bearishWords.foldl (fun s w => s - (matchCount text w : α) * 0.5)
    (bullishWords.foldl (fun s w => s + (matchCount text w : α) * 0.5) 0)

/-- Normalized score (`useSentimentAnalysis.ts` line 76):
`wordCount > 0 ? Math.max(-1, Math.min(1, score / Math.sqrt(wordCount))) : 0`. -/
noncomputable def normalizedScore (text : String) : ℝ :=
  if 0 < textWordCount text then
    max (-1) (min 1 (textRawScore ℝ text / Real.sqrt (textWordCount text)))
  else 0

/-- Threshold classifier (`useSentimentAnalysis.ts` lines 81-90). -/
def classifySentiment (α : Type) [LinearOrderedField α] (s : α) :
    Sentiment × MarketImpact :=
  if 0.3 < s then (.positive, if 0.7 < s then .high else .medium)
  else if s < -0.3 then (.negative, if s < -0.7 then .high else .medium)
  else (.neutral, .low)

/-- Fixed sector name list (`useSentimentAnalysis.ts` lines 134-137). -/
def sectorNames : List String :=
  ["technology", "healthcare", "finance", "energy", "consumer",
   "industrial", "materials", "utilities", "real estate", "telecom"]

/-- Substring test modelling `t.includes(p)` on character lists. -/
def strIncludes (t p : List Char) : Bool :=
  match t with
  | [] => p.isEmpty
  | c :: rest => decide ((c :: rest).take p.length = p) || strIncludes rest p

/-- Sector extraction (`useSentimentAnalysis.ts` lines 133-141). -/
def extractSectors (text : String) : List String :=
  sectorNames.filter fun sec => strIncludes (lowerStr text) sec.data

/-- Pure model of `analyzeText` (`useSentimentAnalysis.ts` lines 48-107):
keyword scoring, threshold classification, confidence. -/
noncomputable def analyzeText (text : String) : SentimentResult ℝ :=
  let ns := normalizedScore text
  { text := text
    sentiment := (classifySentiment ℝ ns).1
    confidence := min 1 (|ns| + 0.2)
    score := ns
    marketImpact := (classifySentiment ℝ ns).2
    sectors := some (extractSectors text) }

/-- Model of `analyzeBatch` (`useSentimentAnalysis.ts` lines 109-122):
`Promise.all` over the item-wise map keeps the arity and the order of the
input list. -/
noncomputable def analyzeBatch (items : List (NewsItem ℝ)) : List (NewsItem ℝ) :=
  items.map fun item => { item with sentiment := some (analyzeText item.headline) }

/-- Arithmetic mean of the scores of a history
(`MarketDashboard.tsx` line 56 and `PortfolioRisk.tsx` line 17). -/
def avgSentiment (α : Type) [LinearOrderedField α]
    (h : List (SentimentResult α)) : α :=
  h.foldl (fun sum s => sum + s.score) 0 / (h.length : α)

/-- Arithmetic mean of the confidences of a window
(`PortfolioRisk.tsx` line 18). -/
def avgConfidence (α : Type) [LinearOrderedField α]
    (h : List (SentimentResult α)) : α :=
  h.foldl (fun sum s => sum + s.confidence) 0 / (h.length : α)

/-- Mean squared deviation of the scores from their mean
(`PortfolioRisk.tsx` line 21). -/
def sentimentVariance (α : Type) [LinearOrderedField α]
    (h : List (SentimentResult α)) : α :=
  h.foldl (fun sum s => sum + (s.score - avgSentiment α h) ^ 2) 0 / (h.length : α)

/-- Volatility of the dashboard (`MarketDashboard.tsx` lines 57-59): square
root of the mean squared deviation of the scores from their mean. -/
noncomputable def volatility (h : List (SentimentResult ℝ)) : ℝ :=
  Real.sqrt (sentimentVariance ℝ h)

/-- Counts record of the dashboard metrics (`MarketDashboard.tsx`
lines 34-40). -/
structure SentimentCounts where
  bullishCount : Nat
  bearishCount : Nat
  neutralCount : Nat
deriving DecidableEq

/-- String form of a sentiment label, as produced by JavaScript string
concatenation on the union type. -/
def sentimentKey : Sentiment → String
  | .positive => "positive"
  | .negative => "negative"
  | .neutral => "neutral"

/-- Model of the counts reduce (`MarketDashboard.tsx` lines 61-67). The source
increments the accumulator property named `s.sentiment + 'Count'`; a dynamic
write to a key that is not one of the three declared fields creates a stray
property on the object and leaves the declared fields unchanged, which is all
that the final reads of `bullishCount`, `bearishCount` and `neutralCount`
observe. -/
def countsFold (α : Type) (h : List (SentimentResult α)) : SentimentCounts :=
  h.foldl
    (fun acc s =>
      let key := sentimentKey s.sentiment ++ "Count"
      if key = "bullishCount" then { acc with bullishCount := acc.bullishCount + 1 }
      else if key = "bearishCount" then { acc with bearishCount := acc.bearishCount + 1 }
      else if key = "neutralCount" then { acc with neutralCount := acc.neutralCount + 1 }
      else acc)
    ⟨0, 0, 0⟩

/-- Market status label (`MarketDashboard.tsx` lines 145-149). -/
def getMarketStatus (α : Type) [LinearOrderedField α] (avg : α) : String :=
  if 0.2 < avg then "Bullish"
  else if avg < -0.2 then "Bearish"
  else "Neutral"

/-- JavaScript `array.slice(-n)`: the last `n` elements of the array, or all
of them when fewer than `n` exist (`PortfolioRisk.tsx` line 16). -/
def lastN (n : Nat) {β : Type} (l : List β) : List β := l.drop (l.length - n)

/-- Recommended action values (`PortfolioRisk.tsx` line 25). -/
inductive TradeAction where
  | buy
  | sell
  | hold
deriving DecidableEq

/-- Recommended action thresholding (`PortfolioRisk.tsx` lines 25-32). -/
def recommendedAction (α : Type) [LinearOrderedField α] (avgS avgC : α) :
    TradeAction :=
  if 0.3 < avgS ∧ 0.7 < avgC then .buy
  else if avgS < -0.3 ∧ 0.7 < avgC then .sell
  else .hold

/-- Risk score (`PortfolioRisk.tsx` line 22). -/
noncomputable def riskScore (h : List (SentimentResult ℝ)) : ℝ :=
  Real.sqrt (sentimentVariance ℝ h) * 100

/-- Entry of the impacted sector list (`PortfolioImpact.impactedSectors` in
`src/types/sentiment.ts`). -/
structure SectorImpact (α : Type) where
  sector : String
  impact : α
  sentiment : String
deriving DecidableEq

/-- One update of the `sectorCounts` object (`PortfolioRisk.tsx` lines 39-43):
insert the key with zero count and zero total if absent, then increment its
count and add the score to its total. The association list keeps JavaScript
object insertion order. -/
def bumpSector (α : Type) [LinearOrderedField α] (m : List (String × Nat × α))
    (sec : String) (score : α) : List (String × Nat × α) :=
  if m.any (fun kv => decide (kv.1 = sec)) then
    m.map fun kv => if kv.1 = sec then (kv.1, kv.2.1 + 1, kv.2.2 + score) else kv
  else m ++ [(sec, 1, score)]

/-- The `sectorCounts` accumulation (`PortfolioRisk.tsx` lines 35-46): every
window entry bumps each sector it is tagged with; an entry with no `sectors`
field contributes nothing. -/
def sectorCounts (α : Type) [LinearOrderedField α]
    (h : List (SentimentResult α)) : List (String × Nat × α) :=
  h.foldl
    (fun m s => (s.sectors.getD []).foldl (fun m2 sec => bumpSector α m2 sec s.score) m)
    []

/-- JavaScript `s.charAt(0).toUpperCase() + s.slice(1)`
(`PortfolioRisk.tsx` line 49). -/
def capitalize (s : String) : String :=
  match s.data with
  | [] => ""
  | c :: cs => String.mk (Char.toUpper c :: cs)

/-- Sector sentiment labelling by the 0.1 thresholds
(`PortfolioRisk.tsx` lines 51-52). -/
def sectorLabel (α : Type) [LinearOrderedField α] (impact : α) : String :=
  if 0.1 < impact then "positive"
  else if impact < -0.1 then "negative"
  else "neutral"

/-- The impacted sector records before sorting (`PortfolioRisk.tsx`
lines 48-53, the `map` over `Object.entries(sectorCounts)`). -/
def impactedSectorsPre (α : Type) [LinearOrderedField α]
    (h : List (SentimentResult α)) : List (SectorImpact α) :=
  (sectorCounts α h).map fun kv =>
    { sector := capitalize kv.1
      impact := kv.2.2 / (kv.2.1 : α)
      sentiment := sectorLabel α (kv.2.2 / (kv.2.1 : α)) }

/-- The impacted sector list (`PortfolioRisk.tsx` lines 48-53): the records
above, stably sorted by descending absolute impact, which is what
`sort((a, b) => Math.abs(b.impact) - Math.abs(a.impact))` produces. -/
def impactedSectors (α : Type) [LinearOrderedField α]
    (h : List (SentimentResult α)) : List (SectorImpact α) :=
  (impactedSectorsPre α h).mergeSort fun a b => decide (|b.impact| ≤ |a.impact|)

/-- Portfolio impact snapshot (`PortfolioImpact` in `src/types/sentiment.ts`). -/
structure PortfolioImpact (α : Type) where
  overallSentiment : α
  riskScore : α
  recommendedAction : TradeAction
  confidence : α
  impactedSectors : List (SectorImpact α)

/-- Model of the `PortfolioRisk` effect (`PortfolioRisk.tsx` lines 12-62): no
assessment is produced for an empty history, otherwise everything is computed
from the last-10 window of the history. -/
noncomputable def assessPortfolio (h : List (SentimentResult ℝ)) :
    Option (PortfolioImpact ℝ) :=
  if h.length = 0 then none
  else
    let recent := lastN 10 h
    some
      { overallSentiment := avgSentiment ℝ recent
        riskScore := MarketSense.riskScore recent
        recommendedAction :=
          MarketSense.recommendedAction ℝ (avgSentiment ℝ recent) (avgConfidence ℝ recent)
        confidence := avgConfidence ℝ recent
        impactedSectors := MarketSense.impactedSectors ℝ recent }

/-- Model of `Promise.all` over a list of fallible computations: the result
list is in input order, and the whole aggregate rejects as a single failure as
soon as any member rejects. -/
def exceptAll {ε β γ : Type} (f : β → Except ε γ) : List β → Except ε (List γ)
  | [] => .ok []
  | b :: t =>
    match f b with
    | .error e => .error e
    | .ok c =>
      match exceptAll f t with
      | .error e => .error e
      | .ok cs => .ok (c :: cs)

/-- Model of `analyzeBatch` over a per-item scorer that may fail (the source
`analyzeText` can reject when the lazy model initialization throws; the pure
keyword computation itself is total and is `analyzeText` above). -/
def analyzeBatchE {ε : Type} (scorer : String → Except ε (SentimentResult ℝ))
    (items : List (NewsItem ℝ)) : Except ε (List (NewsItem ℝ)) :=
  exceptAll (fun item => (scorer item.headline).map
    fun r => { item with sentiment := some r }) items

/-- Orchestration of one batch run (`NewsAnalyzer.tsx` lines 82-91 together
with `App.tsx` lines 28-33): on success the attached sentiments of the results
are appended to the history; on rejection the catch block only logs and the
history is left unchanged. -/
def runBatch {ε : Type} (scorer : String → Except ε (SentimentResult ℝ))
    (history : List (SentimentResult ℝ)) (items : List (NewsItem ℝ)) :
    List (SentimentResult ℝ) × Except ε (List (NewsItem ℝ)) :=
  match analyzeBatchE scorer items with
  | .ok results => (history ++ results.filterMap (fun it => it.sentiment), .ok results)
  | .error e => (history, .error e)

/-- Folding an accumulating sum over a list equals the initial value plus the
sum of the mapped list. -/
theorem foldl_add_map {M β : Type} [AddCommMonoid M] (f : β → M) :
    ∀ (l : List β) (a : M), l.foldl (fun sum s => sum + f s) a = a + (l.map f).sum
  | [], a => by simp
  | b :: t, a => by
    rw [List.foldl_cons, foldl_add_map f t, List.map_cons, List.sum_cons, add_assoc]

/-- Folding an accumulating difference over a list equals the initial value
minus the sum of the mapped list. -/
theorem foldl_sub_map {M β : Type} [AddCommGroup M] (f : β → M) :
    ∀ (l : List β) (a : M), l.foldl (fun sum s => sum - f s) a = a - (l.map f).sum
  | [], a => by simp
  | b :: t, a => by
    rw [List.foldl_cons, foldl_sub_map f t, List.map_cons, List.sum_cons]
    abel

/-- Zero keyword matches make the accumulated word count zero. -/
theorem textWordCount_eq_zero {text : String}
    (hb : ∀ w ∈ bullishWords, matchCount text w = 0)
    (hr : ∀ w ∈ bearishWords, matchCount text w = 0) :
    textWordCount text = 0 := by
  unfold textWordCount
  rw [foldl_add_map, foldl_add_map]
  have h1 : (List.map (matchCount text) bullishWords).sum = 0 :=
    List.sum_eq_zero (by
      intro x hx
      rcases List.mem_map.mp hx with ⟨w, hw, hwx⟩
      have := hb w hw
      omega)
  have h2 : (List.map (matchCount text) bearishWords).sum = 0 :=
    List.sum_eq_zero (by
      intro x hx
      rcases List.mem_map.mp hx with ⟨w, hw, hwx⟩
      have := hr w hw
      omega)
  omega

/-- C1: the batch analyzer preserves the length and the order of its input,
and the item at each position of the output is the input item at that position
with the scorer and classifier result for its headline attached as its
`sentiment` field. -/
theorem claim1_batch_pointwise (items : List (NewsItem ℝ)) :
    (analyzeBatch items).length = items.length ∧
    ∀ i : Nat, (analyzeBatch items)[i]? =
      items[i]?.map fun item =>
        { item with sentiment := some (analyzeText item.headline) } := by
  refine ⟨List.length_map _ _, fun i => ?_⟩
  simp [analyzeBatch]

/-- C2: classification thresholds are strict: a score above 0.3 is positive
with impact high above 0.7 and medium otherwise, a score below -0.3 is
negative with impact high below -0.7 and medium otherwise, and anything in
between is neutral with low impact; in particular -0.3 itself is neutral,
0.3000001 is positive with medium impact, and 0.7000001 is positive with high
impact. -/
theorem claim2_thresholds (α : Type) [LinearOrderedField α] (s : α) :
    (0.3 < s → classifySentiment α s =
      (Sentiment.positive, if 0.7 < s then MarketImpact.high else MarketImpact.medium)) ∧
    (s < -0.3 → classifySentiment α s =
      (Sentiment.negative, if s < -0.7 then MarketImpact.high else MarketImpact.medium)) ∧
    (-0.3 ≤ s → s ≤ 0.3 → classifySentiment α s = (Sentiment.neutral, MarketImpact.low)) ∧
    classifySentiment α (-0.3 : α) = (Sentiment.neutral, MarketImpact.low) ∧
    classifySentiment α (0.3000001 : α) = (Sentiment.positive, MarketImpact.medium) ∧
    classifySentiment α (0.7000001 : α) = (Sentiment.positive, MarketImpact.high) := by
  refine ⟨?_, ?_, ?_, ?_, ?_, ?_⟩
  · intro h1
    simp only [classifySentiment]
    rw [if_pos h1]
  · intro h1
    simp only [classifySentiment]
    rw [if_neg (by linarith), if_pos h1]
  · intro h1 h2
    simp only [classifySentiment]
    rw [if_neg (by linarith), if_neg (by linarith)]
  · norm_num [classifySentiment]
  · norm_num [classifySentiment]
  · norm_num [classifySentiment]

/-- Witness for C2 at the rational score one half. -/
theorem claim2_thresholds_witness :
    (0.3 < (0.5 : ℚ)) ∧
    classifySentiment ℚ 0.5 =
      (Sentiment.positive,
        if (0.7 : ℚ) < 0.5 then MarketImpact.high else MarketImpact.medium) :=
  ⟨by norm_num, (claim2_thresholds ℚ 0.5).1 (by norm_num)⟩

/-- C3: for every text with zero occurrences of every bullish and every
bearish keyword, the scorer returns score 0, sentiment neutral and
confidence 0.2. -/
theorem claim3_no_match_neutral (text : String)
    (hb : ∀ w ∈ bullishWords, matchCount text w = 0)
    (hr : ∀ w ∈ bearishWords, matchCount text w = 0) :
    (analyzeText text).score = 0 ∧
    (analyzeText text).sentiment = Sentiment.neutral ∧
    (analyzeText text).confidence = 0.2 := by
  have hz : textWordCount text = 0 := textWordCount_eq_zero hb hr
  have hns : normalizedScore text = 0 := by
    unfold normalizedScore
    rw [hz]
    simp
  refine ⟨?_, ?_, ?_⟩ <;> simp only [analyzeText, hns]
  · norm_num [classifySentiment]
  · norm_num

/-- Witness for C3 at the empty text. -/
theorem claim3_no_match_neutral_witness :
    (∀ w ∈ bullishWords, matchCount "" w = 0) ∧
    (∀ w ∈ bearishWords, matchCount "" w = 0) ∧
    ((analyzeText "").score = 0 ∧ (analyzeText "").sentiment = Sentiment.neutral ∧
      (analyzeText "").confidence = 0.2) :=
  ⟨by decide, by decide, claim3_no_match_neutral "" (by decide) (by decide)⟩

/-- C4: for every text the scorer's score lies in [-1, 1] and its confidence
lies in [0, 1]. -/
theorem claim4_score_confidence_bounds (text : String) :
    -1 ≤ (analyzeText text).score ∧ (analyzeText text).score ≤ 1 ∧
    0 ≤ (analyzeText text).confidence ∧ (analyzeText text).confidence ≤ 1 := by
  have hs : -1 ≤ normalizedScore text ∧ normalizedScore text ≤ 1 := by
    unfold normalizedScore
    split
    · exact ⟨le_max_left _ _, max_le (by norm_num) (min_le_left _ _)⟩
    · norm_num
  refine ⟨?_, ?_, ?_, ?_⟩ <;> simp only [analyzeText]
  · exact hs.1
  · exact hs.2
  · exact le_min zero_le_one (add_nonneg (abs_nonneg _) (by norm_num))
  · exact min_le_left _ _

/-- Concrete history entry carrying a positive sentiment label, used to
exhibit the counts bug on a one-entry history. -/
def posEntry : SentimentResult ℚ :=
  { text := "good", sentiment := .positive, confidence := 1, score := 1,
    marketImpact := .medium, sectors := none }

/-- C5, failing input: on a history with exactly one positive entry the counts
reduce of the dashboard leaves `bullishCount` (and `bearishCount`) at 0, since
the dynamic increment targets the key `positiveCount`, which is not a declared
field of the accumulator, while the number of entries labelled positive is 1. -/
theorem claim5_counts_bug :
    countsFold ℚ [posEntry] =
      { bullishCount := 0, bearishCount := 0, neutralCount := 0 } ∧
    ([posEntry].filter fun s => s.sentiment == Sentiment.positive).length = 1 := by
  decide

/-- The accumulated average of the dashboard is the arithmetic mean of the
mapped scores. -/
theorem avgSentiment_eq (α : Type) [LinearOrderedField α]
    (h : List (SentimentResult α)) :
    avgSentiment α h = (h.map fun s => s.score).sum / (h.length : α) := by
  unfold avgSentiment
  rw [foldl_add_map]
  rw [zero_add]

/-- The accumulated variance is the mean of the mapped squared deviations. -/
theorem sentimentVariance_eq (α : Type) [LinearOrderedField α]
    (h : List (SentimentResult α)) :
    sentimentVariance α h =
      (h.map fun s => (s.score - avgSentiment α h) ^ 2).sum / (h.length : α) := by
  unfold sentimentVariance
  rw [foldl_add_map]
  rw [zero_add]

/-- Population standard deviation of a list of reals, written from the spec
words: the square root of the mean of the squared deviations of the values
from their arithmetic mean. -/
noncomputable def popStdDev (xs : List ℝ) : ℝ :=
  Real.sqrt ((xs.map fun x => (x - xs.sum / (xs.length : ℝ)) ^ 2).sum / (xs.length : ℝ))

/-- The two-entry history of the end-to-end example of the spec: scores 0.8
and -0.6 with confidences 0.9 and 0.8. -/
noncomputable def exHist : List (SentimentResult ℝ) :=
  [{ text := "a", sentiment := .positive, confidence := 0.9, score := 0.8,
     marketImpact := .high, sectors := none },
   { text := "b", sentiment := .negative, confidence := 0.8, score := -0.6,
     marketImpact := .medium, sectors := none }]

/-- History entry with a zero score and a neutral label. -/
noncomputable def neutralEntry : SentimentResult ℝ :=
  { text := "n", sentiment := .neutral, confidence := 0, score := 0,
    marketImpact := .low, sectors := none }

/-- One-entry history with a constant zero score. -/
noncomputable def constHist : List (SentimentResult ℝ) := [neutralEntry]

/-- C6: for every non-empty history the dashboard volatility is the population
standard deviation of the scores around their arithmetic mean; it is 0 when
all scores are equal; and on the two-entry example history with scores 0.8 and
-0.6 the mean is 0.1, the volatility is 0.7 and the market status label is
Neutral. -/
theorem claim6_volatility :
    (∀ h : List (SentimentResult ℝ), 0 < h.length →
      volatility h = popStdDev (h.map fun s => s.score)) ∧
    (∀ (h : List (SentimentResult ℝ)) (c : ℝ), 0 < h.length →
      (∀ s ∈ h, s.score = c) → volatility h = 0) ∧
    (avgSentiment ℝ exHist = 0.1 ∧ volatility exHist = 0.7 ∧
      getMarketStatus ℝ (avgSentiment ℝ exHist) = "Neutral") := by
  have hvol : ∀ h : List (SentimentResult ℝ),
      volatility h = popStdDev (h.map fun s => s.score) := by
    intro h
    unfold volatility popStdDev
    rw [sentimentVariance_eq, avgSentiment_eq, List.map_map, List.length_map]
    rfl
  refine ⟨fun h _ => hvol h, ?_, ?_⟩
  · intro h c hlen hall
    have hn : ((h.length : ℝ)) ≠ 0 := by
      exact_mod_cast Nat.pos_iff_ne_zero.mp hlen
    have hrep : (h.map fun s => s.score) = List.replicate h.length c := by
      rw [List.eq_replicate_iff]
      refine ⟨List.length_map _ _, ?_⟩
      intro b hbmem
      rcases List.mem_map.mp hbmem with ⟨s, hs, rfl⟩
      exact hall s hs
    have havg : avgSentiment ℝ h = c := by
      rw [avgSentiment_eq, hrep, List.sum_replicate, nsmul_eq_mul,
        mul_div_cancel_left₀ c hn]
    have hzero : (h.map fun s => (s.score - avgSentiment ℝ h) ^ 2).sum = 0 := by
      apply List.sum_eq_zero
      intro x hx
      rcases List.mem_map.mp hx with ⟨s, hs, rfl⟩
      rw [havg, hall s hs]
      ring
    unfold volatility
    rw [sentimentVariance_eq, hzero, zero_div, Real.sqrt_zero]
  · have havg : avgSentiment ℝ exHist = 0.1 := by
      norm_num [avgSentiment, exHist]
    have hvar : sentimentVariance ℝ exHist = 0.49 := by
      rw [sentimentVariance_eq, havg]
      norm_num [exHist]
    refine ⟨havg, ?_, ?_⟩
    · unfold volatility
      rw [hvar, show (0.49 : ℝ) = 0.7 ^ 2 by norm_num, Real.sqrt_sq (by norm_num)]
    · rw [havg]
      norm_num [getMarketStatus]

/-- Witness for C6 on the example history and the constant one-entry history. -/
theorem claim6_volatility_witness :
    (0 < exHist.length ∧ volatility exHist = popStdDev (exHist.map fun s => s.score)) ∧
    (0 < constHist.length ∧ (∀ s ∈ constHist, s.score = 0) ∧
      volatility constHist = 0) :=
  ⟨⟨by norm_num [exHist], claim6_volatility.1 exHist (by norm_num [exHist])⟩,
   ⟨by norm_num [constHist],
    fun s hs => by
      rw [List.mem_singleton.mp hs]
      rfl,
    claim6_volatility.2.1 constHist 0 (by norm_num [constHist])
      (fun s hs => by
        rw [List.mem_singleton.mp hs]
        rfl)⟩⟩

/-- Taking the last 10 of a last-10 window changes nothing. -/
theorem lastN_lastN (h : List (SentimentResult ℝ)) :
    lastN 10 (lastN 10 h) = lastN 10 h := by
  unfold lastN
  have hz : (h.drop (h.length - 10)).length - 10 = 0 := by
    rw [List.length_drop]
    omega
  rw [hz, List.drop_zero]

/-- C7: the risk assessment is a function of the last 10 history entries only:
for every history the assessment of the full history equals the assessment of
its last-10 suffix, and appending an element to a 10-entry history keeps the
newest 10, dropping exactly the oldest of the previous window. -/
theorem claim7_window :
    (∀ h : List (SentimentResult ℝ),
      assessPortfolio h = assessPortfolio (lastN 10 h)) ∧
    (∀ (h : List (SentimentResult ℝ)) (e : SentimentResult ℝ),
      h.length = 10 → lastN 10 (h ++ [e]) = h.drop 1 ++ [e]) := by
  constructor
  · intro h
    by_cases h0 : h.length = 0
    · rw [List.length_eq_zero.mp h0]
      rfl
    · have h1 : ¬((lastN 10 h).length = 0) := by
        unfold lastN
        rw [List.length_drop]
        omega
      simp only [assessPortfolio, if_neg h0, if_neg h1, lastN_lastN]
  · intro h e hlen
    unfold lastN
    rw [List.length_append, hlen]
    show (h ++ [e]).drop 1 = h.drop 1 ++ [e]
    rw [List.drop_append_eq_append_drop, hlen]
    rfl

/-- Witness for C7 on a ten-entry constant history. -/
theorem claim7_window_witness :
    ((List.replicate 10 neutralEntry).length = 10) ∧
    lastN 10 (List.replicate 10 neutralEntry ++ [neutralEntry]) =
      (List.replicate 10 neutralEntry).drop 1 ++ [neutralEntry] :=
  ⟨rfl, claim7_window.2 _ _ rfl⟩

/-- A failing member makes the whole aggregate computation fail. -/
theorem exceptAll_error {ε β γ : Type} (f : β → Except ε γ) :
    ∀ (l : List β) (b : β), b ∈ l → (∃ e, f b = .error e) →
      ∃ err, exceptAll f l = .error err
  | [], b, hb, _ => absurd hb (List.not_mem_nil b)
  | a :: t, b, hb, ⟨e, he⟩ => by
    unfold exceptAll
    rcases List.mem_cons.mp hb with rfl | hbt
    · rw [he]
      exact ⟨e, rfl⟩
    · cases hfa : f a with
      | error ea => exact ⟨ea, rfl⟩
      | ok c =>
        rcases exceptAll_error f t b hbt ⟨e, he⟩ with ⟨err, herr⟩
        rw [herr]
        exact ⟨err, rfl⟩

/-- C9: batch failure is atomic: if the scorer fails on any item of the batch,
the aggregate batch computation fails as a single error, no result list is
produced, and the prior history is returned unchanged. -/
theorem claim9_batch_atomic {ε : Type}
    (scorer : String → Except ε (SentimentResult ℝ))
    (history : List (SentimentResult ℝ)) (items : List (NewsItem ℝ))
    (item : NewsItem ℝ) (e : ε) (hmem : item ∈ items)
    (hfail : scorer item.headline = .error e) :
    (∃ err, analyzeBatchE scorer items = .error err) ∧
    (runBatch scorer history items).1 = history ∧
    (∃ err, (runBatch scorer history items).2 = .error err) := by
  have hbig : ∃ err, analyzeBatchE scorer items = .error err := by
    apply exceptAll_error _ items item hmem
    exact ⟨e, by rw [hfail]; rfl⟩
  rcases hbig with ⟨err, herr⟩
  refine ⟨⟨err, herr⟩, ?_, ⟨err, ?_⟩⟩ <;> simp [runBatch, herr]

/-- Witness for C9: a one-item batch whose scorer always fails. -/
theorem claim9_batch_atomic_witness :
    (({ id := "1", headline := "x", source := "s",
        category := "c" } : NewsItem ℝ) ∈
      [({ id := "1", headline := "x", source := "s", category := "c" } : NewsItem ℝ)]) ∧
    ((fun _ : String => (Except.error () : Except Unit (SentimentResult ℝ))) "x"
      = Except.error ()) ∧
    (runBatch (fun _ => Except.error ()) ([] : List (SentimentResult ℝ))
        [{ id := "1", headline := "x", source := "s", category := "c" }]).1 = [] :=
  ⟨List.mem_singleton.mpr rfl, rfl,
    (claim9_batch_atomic (fun _ => Except.error ()) [] _ _ ()
      (List.mem_singleton.mpr rfl) rfl).2.1⟩

/-- Expansion of a sum of squared deviations over a list of reals. -/
theorem sum_sq_sub (xs : List ℝ) (m : ℝ) :
    (xs.map fun x => (x - m) ^ 2).sum
      = (xs.map fun x => x ^ 2).sum - 2 * m * xs.sum + (xs.length : ℝ) * m ^ 2 := by
  induction xs with
  | nil => simp
  | cons x t ih =>
    simp only [List.map_cons, List.sum_cons, List.length_cons, ih]
    push_cast
    ring

/-- C10: for every non-empty window whose scores all lie in [-1, 1] the risk
score lies in [0, 100]. -/
theorem claim10_risk_bounds (h : List (SentimentResult ℝ)) (hlen : 0 < h.length)
    (hb : ∀ s ∈ h, -1 ≤ s.score ∧ s.score ≤ 1) :
    0 ≤ riskScore h ∧ riskScore h ≤ 100 := by
  have hn : (0 : ℝ) < (h.length : ℝ) := by exact_mod_cast hlen
  have hsum : (h.map fun s => s.score).sum = avgSentiment ℝ h * (h.length : ℝ) := by
    rw [avgSentiment_eq, div_mul_cancel₀]
    exact ne_of_gt hn
  have hsq : ((h.map fun s => s.score).map fun x => x ^ 2).sum ≤ (h.length : ℝ) := by
    have hle := List.sum_le_card_nsmul ((h.map fun s => s.score).map fun x => x ^ 2) 1
      (by
        intro x hx
        rcases List.mem_map.mp hx with ⟨y, hy, rfl⟩
        rcases List.mem_map.mp hy with ⟨s, hs, rfl⟩
        exact (sq_le_one_iff_abs_le_one _).mpr (abs_le.mpr (hb s hs)))
    rw [List.length_map, List.length_map, nsmul_eq_mul, mul_one] at hle
    exact hle
  have hdev : ((h.map fun s => s.score).map fun x => (x - avgSentiment ℝ h) ^ 2).sum
      ≤ (h.length : ℝ) := by
    rw [sum_sq_sub, hsum, List.length_map]
    nlinarith [sq_nonneg (avgSentiment ℝ h),
      mul_nonneg (sq_nonneg (avgSentiment ℝ h)) hn.le]
  have hvar1 : sentimentVariance ℝ h ≤ 1 := by
    rw [sentimentVariance_eq, div_le_one hn]
    calc (h.map fun s => (s.score - avgSentiment ℝ h) ^ 2).sum
        = ((h.map fun s => s.score).map fun x => (x - avgSentiment ℝ h) ^ 2).sum := by
          rw [List.map_map]
          rfl
      _ ≤ (h.length : ℝ) := hdev
  have hvar0 : 0 ≤ sentimentVariance ℝ h := by
    rw [sentimentVariance_eq]
    apply div_nonneg _ hn.le
    apply List.sum_nonneg
    intro x hx
    rcases List.mem_map.mp hx with ⟨s, hs, rfl⟩
    exact sq_nonneg _
  constructor
  · exact mul_nonneg (Real.sqrt_nonneg _) (by norm_num)
  · have hroot : Real.sqrt (sentimentVariance ℝ h) ≤ 1 := by
      have := Real.sqrt_le_sqrt hvar1
      rwa [Real.sqrt_one] at this
    calc Real.sqrt (sentimentVariance ℝ h) * 100 ≤ 1 * 100 :=
          mul_le_mul_of_nonneg_right hroot (by norm_num)
      _ = 100 := by norm_num

/-- Witness for C10 on the constant one-entry history. -/
theorem claim10_risk_bounds_witness :
    (0 < constHist.length) ∧ (∀ s ∈ constHist, -1 ≤ s.score ∧ s.score ≤ 1) ∧
    (0 ≤ riskScore constHist ∧ riskScore constHist ≤ 100) :=
  ⟨Nat.one_pos,
   fun s hs => by
     rw [List.mem_singleton.mp hs]
     exact ⟨neg_one_lt_zero.le, zero_le_one⟩,
   claim10_risk_bounds constHist Nat.one_pos
     (fun s hs => by
       rw [List.mem_singleton.mp hs]
       exact ⟨neg_one_lt_zero.le, zero_le_one⟩)⟩

/-- Keys of a sector accumulation map, in insertion order. -/
def keysOf (α : Type) (m : List (String × Nat × α)) : List String := m.map Prod.fst

/-- Lookup of the count and total stored for a key. -/
def getEntry (α : Type) : List (String × Nat × α) → String → Option (Nat × α)
  | [], _ => none
  | kv :: rest, k => if kv.1 = k then some kv.2 else getEntry α rest k

/-- The presence test of `bumpSector` is membership in the key list. -/
theorem any_key_iff (α : Type) (m : List (String × Nat × α)) (sec : String) :
    (m.any fun kv => decide (kv.1 = sec)) = true ↔ sec ∈ keysOf α m := by
  rw [List.any_eq_true]
  unfold keysOf
  rw [List.mem_map]
  constructor
  · rintro ⟨kv, hkv, hd⟩
    exact ⟨kv, hkv, of_decide_eq_true hd⟩
  · rintro ⟨kv, hkv, hd⟩
    exact ⟨kv, hkv, decide_eq_true hd⟩

/-- A key is absent from a map exactly when its lookup is `none`. -/
theorem getEntry_eq_none_iff (α : Type) :
    ∀ (m : List (String × Nat × α)) (k : String),
      getEntry α m k = none ↔ k ∉ keysOf α m
  | [], k => by simp [getEntry, keysOf]
  | kv :: rest, k => by
    unfold getEntry
    by_cases hk : kv.1 = k
    · simp [keysOf, hk]
    · rw [if_neg hk, getEntry_eq_none_iff α rest k]
      have hk2 : ¬(k = kv.1) := fun h => hk h.symm
      simp [keysOf, hk2]

/-- Lookup after the in-place update branch of `bumpSector`. -/
theorem getEntry_map_update (α : Type) [Add α] (sec : String) (v : α) :
    ∀ (m : List (String × Nat × α)) (k : String),
      getEntry α (m.map fun kv =>
        if kv.1 = sec then (kv.1, kv.2.1 + 1, kv.2.2 + v) else kv) k =
      if k = sec then (getEntry α m k).map fun cv => (cv.1 + 1, cv.2 + v)
      else getEntry α m k
  | [], k => by
    by_cases hks : k = sec <;> simp [getEntry, hks]
  | kv :: rest, k => by
    have ih := getEntry_map_update α sec v rest k
    by_cases hs : kv.1 = sec <;> by_cases hk : kv.1 = k
    · have hks : k = sec := by rw [← hk, hs]
      simp [getEntry, hs, hks]
    · have hks : ¬(k = sec) := fun hkss => hk (hs.trans hkss.symm)
      have hsk : ¬(sec = k) := fun hskk => hks hskk.symm
      simp [getEntry, hs, hk, hks, hsk, ih]
    · have hks : ¬(k = sec) := fun hkss => hs (hk.trans hkss)
      simp [getEntry, hs, hk, hks]
    · simp [getEntry, hs, hk, ih]

/-- Lookup after appending a fresh key at the end of the map. -/
theorem getEntry_append_single (α : Type) (sec : String) (e : Nat × α) :
    ∀ (m : List (String × Nat × α)) (k : String),
      getEntry α (m ++ [(sec, e)]) k =
        match getEntry α m k with
        | some cv => some cv
        | none => if sec = k then some e else none
  | [], k => by
    simp [getEntry]
  | kv :: rest, k => by
    rw [List.cons_append]
    unfold getEntry
    by_cases hk : kv.1 = k
    · rw [if_pos hk, if_pos hk]
    · rw [if_neg hk, if_neg hk, getEntry_append_single α sec e rest k]

/-- Lookup finds any member of a map with distinct keys. -/
theorem getEntry_of_mem (α : Type) :
    ∀ (m : List (String × Nat × α)), (keysOf α m).Nodup →
      ∀ kv ∈ m, getEntry α m kv.1 = some kv.2
  | [], _, kv, hkv => absurd hkv (List.not_mem_nil kv)
  | kv0 :: rest, hnd, kv, hkv => by
    rcases List.mem_cons.mp hkv with rfl | hkvr
    · unfold getEntry
      rw [if_pos rfl]
    · unfold getEntry
      unfold keysOf at hnd
      rw [List.map_cons, List.nodup_cons] at hnd
      have hne : ¬(kv0.1 = kv.1) := by
        intro he
        exact hnd.1 (he ▸ List.mem_map_of_mem Prod.fst hkvr)
      rw [if_neg hne]
      exact getEntry_of_mem α rest hnd.2 kv hkvr

/-- A successful lookup names a member of the map. -/
theorem mem_of_getEntry (α : Type) :
    ∀ (m : List (String × Nat × α)) (k : String) (e : Nat × α),
      getEntry α m k = some e → (k, e) ∈ m
  | [], k, e, he => by simp [getEntry] at he
  | kv :: rest, k, e, he => by
    unfold getEntry at he
    by_cases hk : kv.1 = k
    · rw [if_pos hk] at he
      have : kv = (k, e) := by
        rw [← hk]
        exact Prod.ext rfl (by injection he)
      rw [← this]
      exact List.mem_cons_self _ _
    · rw [if_neg hk] at he
      exact List.mem_cons_of_mem _ (mem_of_getEntry α rest k e he)

/-- Keys after one bump: unchanged when the key is present, appended at the
end when it is fresh. -/
theorem keysOf_bumpSector (α : Type) [LinearOrderedField α]
    (m : List (String × Nat × α)) (sec : String) (v : α) :
    keysOf α (bumpSector α m sec v) =
      if sec ∈ keysOf α m then keysOf α m else keysOf α m ++ [sec] := by
  unfold bumpSector
  by_cases hmem : sec ∈ keysOf α m
  · rw [if_pos ((any_key_iff α m sec).mpr hmem), if_pos hmem]
    unfold keysOf
    rw [List.map_map]
    apply List.map_congr_left
    intro kv _
    by_cases hksec : kv.1 = sec <;> simp [hksec]
  · rw [if_neg (fun hany => hmem ((any_key_iff α m sec).mp hany)), if_neg hmem]
    unfold keysOf
    rw [List.map_append]
    rfl

/-- A bump preserves distinctness of the keys. -/
theorem keysOf_bumpSector_nodup (α : Type) [LinearOrderedField α]
    (m : List (String × Nat × α)) (sec : String) (v : α)
    (hnd : (keysOf α m).Nodup) : (keysOf α (bumpSector α m sec v)).Nodup := by
  rw [keysOf_bumpSector]
  by_cases hmem : sec ∈ keysOf α m
  · rw [if_pos hmem]
    exact hnd
  · rw [if_neg hmem]
    rw [List.nodup_append]
    refine ⟨hnd, List.nodup_singleton sec, ?_⟩
    intro a ha hb
    rw [List.mem_singleton] at hb
    exact hmem (hb ▸ ha)

/-- Lookup of the bumped key after one bump: count up by one, total up by the
score, starting from one occurrence and the bare score for a fresh key. -/
theorem getEntry_bumpSector_self (α : Type) [LinearOrderedField α]
    (m : List (String × Nat × α)) (sec : String) (v : α) :
    getEntry α (bumpSector α m sec v) sec =
      some (match getEntry α m sec with
            | some cv => (cv.1 + 1, cv.2 + v)
            | none => (1, v)) := by
  unfold bumpSector
  by_cases hmem : sec ∈ keysOf α m
  · rw [if_pos ((any_key_iff α m sec).mpr hmem), getEntry_map_update, if_pos rfl]
    cases he : getEntry α m sec with
    | none => exact absurd hmem ((getEntry_eq_none_iff α m sec).mp he)
    | some cv => rfl
  · rw [if_neg (fun hany => hmem ((any_key_iff α m sec).mp hany)),
      getEntry_append_single, (getEntry_eq_none_iff α m sec).mpr hmem]
    simp

/-- Lookup of every other key is unchanged by a bump. -/
theorem getEntry_bumpSector_other (α : Type) [LinearOrderedField α]
    (m : List (String × Nat × α)) (sec k : String) (v : α) (hne : ¬(k = sec)) :
    getEntry α (bumpSector α m sec v) k = getEntry α m k := by
  unfold bumpSector
  by_cases hmem : sec ∈ keysOf α m
  · rw [if_pos ((any_key_iff α m sec).mpr hmem), getEntry_map_update, if_neg hne]
  · rw [if_neg (fun hany => hmem ((any_key_iff α m sec).mp hany)),
      getEntry_append_single]
    cases he : getEntry α m k with
    | some cv => rfl
    | none => exact if_neg fun h => hne h.symm

/-- Folding the bumps of one window entry over a duplicate-free sector list:
every listed sector gains one count and the entry's score once, every other
key is untouched, and distinctness of the keys is preserved. -/
theorem foldBump_spec (α : Type) [LinearOrderedField α] (v : α) :
    ∀ (secs : List String), secs.Nodup →
      ∀ (m : List (String × Nat × α)), (keysOf α m).Nodup →
        (keysOf α (secs.foldl (fun m2 sec => bumpSector α m2 sec v) m)).Nodup ∧
        (∀ k ∈ secs,
          getEntry α (secs.foldl (fun m2 sec => bumpSector α m2 sec v) m) k =
            some (match getEntry α m k with
                  | some cv => (cv.1 + 1, cv.2 + v)
                  | none => (1, v))) ∧
        (∀ k, k ∉ secs →
          getEntry α (secs.foldl (fun m2 sec => bumpSector α m2 sec v) m) k =
            getEntry α m k)
  | [], _, m, hnd => ⟨hnd, fun k hk => absurd hk (List.not_mem_nil k), fun k _ => rfl⟩
  | sec :: rest, hsnd, m, hnd => by
    rw [List.foldl_cons]
    have hm1 : (keysOf α (bumpSector α m sec v)).Nodup :=
      keysOf_bumpSector_nodup α m sec v hnd
    have hrest := List.nodup_cons.mp hsnd
    have ih := foldBump_spec α v rest hrest.2 (bumpSector α m sec v) hm1
    refine ⟨ih.1, ?_, ?_⟩
    · intro k hk
      rcases List.mem_cons.mp hk with rfl | hkr
      · rw [ih.2.2 k hrest.1]
        exact getEntry_bumpSector_self α m k v
      · have hkne : ¬(k = sec) := fun he => hrest.1 (he ▸ hkr)
        rw [ih.2.1 k hkr, getEntry_bumpSector_other α m sec k v hkne]
    · intro k hk
      have hknot : k ∉ rest := fun hh => hk (List.mem_cons_of_mem _ hh)
      have hkne : ¬(k = sec) := fun he => hk (he ▸ List.mem_cons_self _ _)
      rw [ih.2.2 k hknot, getEntry_bumpSector_other α m sec k v hkne]

/-- Window entries tagged with the given sector, as the spec words it. -/
def taggedWith (α : Type) (sec : String) (h : List (SentimentResult α)) :
    List (SentimentResult α) :=
  h.filter fun s => decide (sec ∈ s.sectors.getD [])

/-- Mean score of the window entries tagged with a sector, as the spec words
it: every tagged entry contributes its full score exactly once. -/
def specSectorMean (α : Type) [LinearOrderedField α] (sec : String)
    (h : List (SentimentResult α)) : α :=
  ((taggedWith α sec h).map fun s => s.score).sum /
    ((taggedWith α sec h).length : α)

/-- All sector tags mentioned in a window, deduplicated. -/
def mentionedSectors (α : Type) (h : List (SentimentResult α)) : List String :=
  ((h.map fun s => s.sectors.getD []).flatten).dedup

/-- The sector accumulation of a window whose entries carry duplicate-free
sector tags stores, for every key, exactly the number of entries tagged with
it together with the sum of their scores, stores nothing for untagged keys,
and keeps its keys distinct. -/
theorem sectorCounts_spec (α : Type) [LinearOrderedField α]
    (h : List (SentimentResult α)) (hnd : ∀ s ∈ h, (s.sectors.getD []).Nodup) :
    (keysOf α (sectorCounts α h)).Nodup ∧
    ∀ k, getEntry α (sectorCounts α h) k =
      if 0 < (taggedWith α k h).length
      then some ((taggedWith α k h).length,
        ((taggedWith α k h).map fun s => s.score).sum)
      else none := by
  induction h using List.reverseRecOn with
  | nil =>
    refine ⟨List.nodup_nil, fun k => ?_⟩
    simp [sectorCounts, taggedWith, getEntry]
  | append_singleton t s ih =>
    have hndt : ∀ s2 ∈ t, (s2.sectors.getD []).Nodup := fun s2 hs2 =>
      hnd s2 (List.mem_append_left _ hs2)
    have hnds : (s.sectors.getD []).Nodup :=
      hnd s (List.mem_append_right _ (List.mem_singleton.mpr rfl))
    obtain ⟨ihnd, ihget⟩ := ih hndt
    have hrw : sectorCounts α (t ++ [s]) =
        (s.sectors.getD []).foldl (fun m2 sec => bumpSector α m2 sec s.score)
          (sectorCounts α t) := by
      unfold sectorCounts
      rw [List.foldl_append, List.foldl_cons, List.foldl_nil]
    have hfold := foldBump_spec α s.score (s.sectors.getD []) hnds
      (sectorCounts α t) ihnd
    rw [hrw]
    refine ⟨hfold.1, fun k => ?_⟩
    by_cases hk : k ∈ s.sectors.getD []
    · rw [hfold.2.1 k hk, ihget k]
      have htag : taggedWith α k (t ++ [s]) = taggedWith α k t ++ [s] := by
        unfold taggedWith
        rw [List.filter_append]
        simp [hk]
      rw [htag]
      by_cases hlen : 0 < (taggedWith α k t).length
      · rw [if_pos hlen, if_pos (by simp)]
        simp
      · have hempty : taggedWith α k t = [] :=
          List.length_eq_zero.mp (Nat.eq_zero_of_not_pos hlen)
        rw [if_neg hlen, if_pos (by simp), hempty]
        simp
    · rw [hfold.2.2 k hk, ihget k]
      have htag : taggedWith α k (t ++ [s]) = taggedWith α k t := by
        unfold taggedWith
        rw [List.filter_append]
        simp [hk]
      rw [htag]

/-- A sector is mentioned in a window exactly when some entry is tagged with
it. -/
theorem mentionedSectors_iff (α : Type) (h : List (SentimentResult α))
    (k : String) :
    k ∈ mentionedSectors α h ↔ 0 < (taggedWith α k h).length := by
  unfold mentionedSectors
  rw [List.mem_dedup, List.mem_flatten]
  constructor
  · rintro ⟨l, hl, hkl⟩
    rcases List.mem_map.mp hl with ⟨s, hs, rfl⟩
    have hmem : s ∈ taggedWith α k h := by
      unfold taggedWith
      rw [List.mem_filter]
      exact ⟨hs, decide_eq_true hkl⟩
    exact List.length_pos_of_mem hmem
  · intro hpos
    obtain ⟨s, hsmem⟩ := List.exists_mem_of_length_pos hpos
    unfold taggedWith at hsmem
    rw [List.mem_filter] at hsmem
    exact ⟨s.sectors.getD [],
      List.mem_map_of_mem (fun s2 => s2.sectors.getD []) hsmem.1,
      of_decide_eq_true hsmem.2⟩

/-- C8: the impacted sector list of the risk assessor holds one record per
mentioned sector, whose impact is the mean of the full scores of the window
entries tagged with that sector (each tagged entry contributing its score once
to every sector it is tagged with) and whose label comes from the strict 0.1
thresholds on that mean; and the list is sorted by descending absolute
impact. -/
theorem claim8_sector_impacts (α : Type) [LinearOrderedField α]
    (h : List (SentimentResult α))
    (hnd : ∀ s ∈ h, (s.sectors.getD []).Nodup) :
    List.Perm (impactedSectors α h)
      ((mentionedSectors α h).map fun k =>
        { sector := capitalize k
          impact := specSectorMean α k h
          sentiment := sectorLabel α (specSectorMean α k h) }) ∧
    List.Pairwise (fun a b => |b.impact| ≤ |a.impact|) (impactedSectors α h) := by
  obtain ⟨hkeys, hget⟩ := sectorCounts_spec α h hnd
  have hperm : List.Perm (sectorCounts α h)
      ((mentionedSectors α h).map fun k =>
        (k, (taggedWith α k h).length,
          ((taggedWith α k h).map fun s => s.score).sum)) := by
    have hnd1 : (sectorCounts α h).Nodup := List.Nodup.of_map Prod.fst hkeys
    have hnd2 : ((mentionedSectors α h).map fun k =>
        (k, (taggedWith α k h).length,
          ((taggedWith α k h).map fun s => s.score).sum)).Nodup :=
      List.Nodup.map (fun a b hab => congrArg Prod.fst hab)
        (List.nodup_dedup _)
    rw [List.perm_ext_iff_of_nodup hnd1 hnd2]
    intro kv
    constructor
    · intro hkv
      have hg := getEntry_of_mem α (sectorCounts α h) hkeys kv hkv
      rw [hget kv.1] at hg
      by_cases hpos : 0 < (taggedWith α kv.1 h).length
      · rw [if_pos hpos] at hg
        injection hg with hg2
        rw [List.mem_map]
        exact ⟨kv.1, (mentionedSectors_iff α h kv.1).mpr hpos,
          Prod.ext rfl hg2⟩
      · rw [if_neg hpos] at hg
        exact absurd hg (by simp)
    · intro hkv
      rcases List.mem_map.mp hkv with ⟨k, hkmem, rfl⟩
      have hpos := (mentionedSectors_iff α h k).mp hkmem
      apply mem_of_getEntry α (sectorCounts α h) k
      rw [hget k, if_pos hpos]
  have hpre : List.Perm (impactedSectorsPre α h)
      ((mentionedSectors α h).map fun k =>
        ({ sector := capitalize k
           impact := specSectorMean α k h
           sentiment := sectorLabel α (specSectorMean α k h) } : SectorImpact α)) := by
    have hmap := hperm.map fun kv : String × Nat × α =>
      ({ sector := capitalize kv.1
         impact := kv.2.2 / (kv.2.1 : α)
         sentiment := sectorLabel α (kv.2.2 / (kv.2.1 : α)) } : SectorImpact α)
    rw [List.map_map] at hmap
    exact hmap
  have hmsperm := List.mergeSort_perm (impactedSectorsPre α h)
    fun a b : SectorImpact α => decide (|b.impact| ≤ |a.impact|)
  constructor
  · exact hmsperm.trans hpre
  · unfold impactedSectors
    refine List.Pairwise.imp (fun hab => of_decide_eq_true hab)
      (List.sorted_mergeSort ?_ ?_ (impactedSectorsPre α h))
    · exact fun a b c hab hbc => decide_eq_true
        (le_trans (of_decide_eq_true hbc) (of_decide_eq_true hab))
    · intro a b
      rw [Bool.or_eq_true, decide_eq_true_eq, decide_eq_true_eq]
      exact le_total _ _

/-- Window entry tagged with both the technology and the finance sector. -/
def qEntryTechFin : SentimentResult ℚ :=
  { text := "a", sentiment := .positive, confidence := 1, score := 1,
    marketImpact := .high, sectors := some ["technology", "finance"] }

/-- Window entry tagged with the technology sector only. -/
def qEntryTech : SentimentResult ℚ :=
  { text := "b", sentiment := .neutral, confidence := 0, score := 0,
    marketImpact := .low, sectors := some ["technology"] }

/-- Witness for C8 on a two-entry rational window with overlapping sector
tags. -/
theorem claim8_sector_impacts_witness :
    (∀ s ∈ [qEntryTechFin, qEntryTech], (s.sectors.getD []).Nodup) ∧
    (List.Perm (impactedSectors ℚ [qEntryTechFin, qEntryTech])
      ((mentionedSectors ℚ [qEntryTechFin, qEntryTech]).map fun k =>
        { sector := capitalize k
          impact := specSectorMean ℚ k [qEntryTechFin, qEntryTech]
          sentiment := sectorLabel ℚ (specSectorMean ℚ k [qEntryTechFin, qEntryTech]) }) ∧
     List.Pairwise (fun a b => |b.impact| ≤ |a.impact|)
       (impactedSectors ℚ [qEntryTechFin, qEntryTech])) :=
  ⟨by decide, claim8_sector_impacts ℚ [qEntryTechFin, qEntryTech] (by decide)⟩

end MarketSense
